import Mathlib

/-!
Verification of the consensus ADMM driver (`cvxpy/consensus/consensus.py`)
and the affine coefficient utility (`cvxpy/utilities/coefficient_utils.py`).

Numeric arrays are modelled pointwise: a variable's value is a rational
(elementwise operations on arrays act identically on every entry), and the
spectral step-size arithmetic, which uses a real square root, is modelled
over the reals.  Python dicts are modelled as insertion-ordered association
lists; `defaultdict` reads that insert a default are modelled explicitly.
-/

/-- Modelled from the spec: the solver status vocabulary ("one of: optimal,
infeasible, unbounded, or other solver-specific non-success"); the constant
`s.INF_OR_UNB` of `cvxpy.settings` is not part of the sources. -/
inductive Status
  | optimal
  | infeasible
  | unbounded
  | otherStatus
  deriving DecidableEq, Repr

/-- Modelled from the spec: membership in the infeasible-or-unbounded status
set `s.INF_OR_UNB` tested by `x_average` and `consensus_map`. -/
def infOrUnb : Status → Bool
  | Status.infeasible => true
  | Status.unbounded => true
  | _ => false

/-- Variable values keyed by variable id, as in the Python dicts `xvals`,
`xbars`: an insertion-ordered association list. -/
abbrev XMap : Type := List (ℕ × ℚ)

/-- Occurrence counts keyed by variable id (the `xcnts` defaultdict). -/
abbrev CntMap : Type := List (ℕ × ℕ)

/-- One worker reply in pull mode: `(status, xvals)` as sent by `run_worker`. -/
abbrev Report : Type := Status × XMap

/-- `xbars[key] += value` on a `defaultdict(float)`: update the entry when the
key is present, otherwise insert the key with `0 + value = value`. -/
def dictAdd (d : XMap) (k : ℕ) (v : ℚ) : XMap :=
  if (d.lookup k).isSome then
    d.map (fun p => if p.1 = k then (p.1, p.2 + v) else p)
  else
    d ++ [(k, v)]

/-- The statement `++xcnts[key]` in the Python source is not an increment: it
parses as a double unary plus, so it only *reads* `xcnts[key]`, which on a
`defaultdict(int)` inserts the key with count `0` when absent and changes
nothing otherwise.  The count is never incremented. -/
def touchCnt (c : CntMap) (k : ℕ) : CntMap :=
  if (c.lookup k).isSome then c else c ++ [(k, 0)]

/-- The inner loop `for key, value in xvals.items(): xbars[key] += value;
++xcnts[key]` of `x_average` / `consensus_map`. -/
def accumReply (xb : XMap) (xc : CntMap) (xvals : XMap) : XMap × CntMap :=
  xvals.foldl (fun a p => (dictAdd a.1 p.1 p.2, touchCnt a.2 p.1)) (xb, xc)

/-- Errors escaping the coordinator: the `RuntimeError` raised on an
infeasible/unbounded proximal status, and the unbound-local error raised by
the `return` expression of `consensus` when the loop never ran. -/
inductive CErr
  | infOrUnb
  | nameErrorXbars
  deriving DecidableEq, Repr

/-- The gather loop of `x_average`: per reply, raise on a bad status, else
accumulate sums and (never-incremented) counts. -/
def x_avg_go : List Report → XMap → CntMap → Except CErr (XMap × CntMap)
  | [], xb, xc => Except.ok (xb, xc)
  | (st, xvals) :: rest, xb, xc =>
    if infOrUnb st then Except.error CErr.infOrUnb
    else
      let a := accumReply xb xc xvals
      x_avg_go rest a.1 a.2

/-- `xbars_n[key] /= c` on a `defaultdict(float)`: divide in place when the
key is present, otherwise insert `0 / c`. -/
def divAssign (m : XMap) (k : ℕ) (c : ℚ) : XMap :=
  if (m.lookup k).isSome then
    m.map (fun p => if p.1 = k then (p.1, p.2 / c) else p)
  else
    m ++ [(k, 0 / c)]

/-- The final loop of `x_average` / `consensus_map`: for each listed key,
divide the summed value by its count when the count is nonzero (reading a
missing count on the defaultdict yields `0`, so nothing happens then). -/
def divideByCounts (keys : List ℕ) (m : XMap) (xc : CntMap) : XMap :=
  keys.foldl (fun m k =>
    if ((xc.lookup k).getD 0 : ℕ) ≠ 0 then divAssign m k (((xc.lookup k).getD 0 : ℕ) : ℚ)
    else m) m

/-- `x_average(prox_res)`: raise if any reply's status is in `INF_OR_UNB`,
sum the reported values per key, then divide each key's sum by its count
where that count is nonzero.  (Because `++xcnts[key]` never increments, every
count is `0` and the division never happens.) -/
def x_average (prox_res : List Report) : Except CErr XMap :=
  match x_avg_go prox_res [] [] with
  | Except.error e => Except.error e
  | Except.ok (xb, xc) => Except.ok (divideByCounts (xb.map Prod.fst) xb xc)

/-- One worker reply in push mode: `(status, xvals, uvals)` as sent by
`worker_map`. -/
abbrev Reply : Type := Status × XMap × XMap

/-- The gather loop of `consensus_map`: per pipe, raise on a bad status, else
accumulate value sums, (never-incremented) counts, and the updated duals. -/
def cm_go : List Reply → XMap → CntMap → List XMap →
    Except CErr (XMap × CntMap × List XMap)
  | [], xb, xc, us => Except.ok (xb, xc, us)
  | (st, xvals, uvals) :: rest, xb, xc, us =>
    if infOrUnb st then Except.error CErr.infOrUnb
    else
      let a := accumReply xb xc xvals
      cm_go rest a.1 a.2 (us ++ [uvals])

/-- `consensus_map(pipes, xbars, udicts)` after the scatter: gather every
pipe's `(status, xvals, uvals)`, sum the `xvals` into `xbars_n`, keep the
updated duals, then run the division loop over the keys of the *input*
`xbars`.  The scatter itself only writes to the pipes and does not affect the
returned value, so the gathered replies are the function's input here. -/
def consensus_map (xbars : XMap) (replies : List Reply) :
    Except CErr (XMap × List XMap) :=
  match cm_go replies [] [] [] with
  | Except.error e => Except.error e
  | Except.ok (xbn, xc, us) =>
      Except.ok (divideByCounts (xbars.map Prod.fst) xbn xc, us)

/-- Modelled from the spec: the broadcast value the spec asks for — the
arithmetic mean of the reported values over exactly the workers that
reported the key. -/
def specMean (prox_res : List Report) (k : ℕ) : ℚ :=
  let vals := prox_res.filterMap (fun r => r.2.lookup k)
  vals.sum / (vals.length : ℚ)

/-- Whether some reply in a round carries an infeasible/unbounded status. -/
def anyInfUnb (reps : List Report) : Bool :=
  reps.any fun r => infOrUnb r.1

/-- The round loop of `consensus` (one list entry per round), together with
the binding state of the local name `xbars`.  A `RuntimeError` raised by
`x_average` propagates out of `consensus` at once, *skipping* the
`[p.terminate() for p in procs]` line, so the returned flag records whether
the terminate line was reached (`true` only on normal loop exit).  When the
loop never bound `xbars`, the `return` expression raises the unbound-local
error — after the terminate line. -/
def runRounds : List (List Report) → Option XMap → Except CErr XMap × Bool
  | [], none => (Except.error CErr.nameErrorXbars, true)
  | [], some xb => (Except.ok xb, true)
  | round :: rest, _ =>
    match x_average round with
    | Except.error e => (Except.error e, false)
    | Except.ok xb => runRounds rest (some xb)

/-- `consensus(p_list, ...)` viewed from the round loop on: the worker solves
are an oracle `reports` giving each round's gathered `(status, xvals)` list;
the scatter writes and the elapsed-time bookkeeping do not affect the
returned variable averages. -/
def consensus_run (reports : ℕ → List Report) (max_iter : ℕ) :
    Except CErr XMap × Bool :=
  runRounds ((List.range max_iter).map reports) none

/-- `rho_init = kwargs.pop("rho_init", N*[1.0])` in `consensus`. -/
def consensus_rho_init (N : ℕ) (supplied : Option (List ℚ)) : List ℚ :=
  supplied.getD (List.replicate N (1 : ℚ))

/-- The worker-spawn loop of `consensus`: worker `i < N` is handed
`rho_init[i]`.  There is no length validation anywhere: a list shorter than
`N` hits an `IndexError` when the loop first indexes past its end, and a
longer list simply has its tail ignored. -/
def consensus_setup (N : ℕ) (supplied : Option (List ℚ)) : Except String (List ℚ) :=
  let rho_init := consensus_rho_init N supplied
  if rho_init.length < N then Except.error "IndexError"
  else Except.ok (rho_init.take N)

/-! Spectral step size (`step_ls`, `step_cor`, `step_safe`, `step_spec`).
The float arrays are modelled as lists of reals; `np.sum(d**2)` is `sumSq d`
and `np.sum(p*d)` is `sumMul p d`. -/

/-- `np.sum(v**2)`. -/
def sumSq (v : List ℝ) : ℝ := (v.map fun x => x ^ 2).sum

/-- `np.sum(p*d)` (elementwise product, then sum). -/
def sumMul (p d : List ℝ) : ℝ := (List.zipWith (fun a b => a * b) p d).sum

/-- `step_ls(p, d)`: least squares estimator for the spectral step size. -/
noncomputable def step_ls (p d : List ℝ) : ℝ :=
  let sd := sumSq d / sumMul p d
  let mg := sumMul p d / sumSq p
  if 2 * mg > sd then mg else sd - mg

/-- `step_cor(p, d)`: correlation coefficient of two vectors. -/
noncomputable def step_cor (p d : List ℝ) : ℝ :=
  sumMul p d / Real.sqrt (sumSq p * sumSq d)

/-- `step_safe(rho, a, b, a_cor, b_cor, eps)`: safeguarding rule. -/
noncomputable def step_safe (rho a b a_cor b_cor eps : ℝ) : ℝ :=
  if a_cor > eps ∧ b_cor > eps then Real.sqrt (a * b)
  else if a_cor > eps ∧ b_cor ≤ eps then a
  else if a_cor ≤ eps ∧ b_cor > eps then b
  else rho

/-- `step_spec(rho, k, dx, dxbar, du, duhat, eps, C)`: generalized spectral
step size with safeguarding and the trust-region clamp
`max(min(rho_hat, scale*rho), rho/scale)`, `scale = 1 + C/(1.0*k**2)`. -/
noncomputable def step_spec (rho : ℝ) (k : ℕ) (dx dxbar du duhat : List ℝ)
    (eps C : ℝ) : ℝ :=
  if sumSq dx = 0 ∨ sumSq dxbar = 0 ∨ sumSq du = 0 ∨ sumSq duhat = 0 then rho
  else
    let a_hat := step_ls dx duhat
    let b_hat := step_ls dxbar du
    let a_cor := step_cor dx duhat
    let b_cor := step_cor dxbar du
    let scale := 1 + C / (k : ℝ) ^ 2
    let rho_hat := step_safe rho a_hat b_hat a_cor b_cor eps
    max (min rho_hat (scale * rho)) (rho / scale)

/-! Worker loops.  Arrays are modelled pointwise (one rational per variable
key), the local solver and the coordinator's broadcasts are oracles indexed
by round, and the per-key Python dict loops become pointwise updates. -/

/-- The per-variable state a worker holds: the problem variable's current
value `x`, and the parameters `xbar` and `u` of the proximal penalty. -/
structure WState where
  x : ℕ → ℚ
  xbar : ℕ → ℚ
  u : ℕ → ℚ

/-- Worker state at spawn: `prox_step` zero-initializes the `xbar` and `u`
parameters; the variable value starts unset, modelled as zero. -/
def initWState : WState := ⟨fun _ => 0, fun _ => 0, fun _ => 0⟩

/-- One iteration of the `run_worker` loop (pull mode): solve writes the new
`x`; after `(xbars, i)` is received, each key gets `xbar` assigned to the
broadcast value and then `u += rho*(x - xbar)` with that freshly assigned
`xbar`. -/
def pullRound (rho : ℚ) (solved bcast : ℕ → ℚ) (st : WState) : WState :=
  let st1 : WState := { st with x := solved }
  { x := st1.x, xbar := bcast, u := fun k => st1.u k + rho * (st1.x k - bcast k) }

/-- The state of `run_worker` after `n` complete iterations, with the
round-`r` solve result `solves r` and broadcast `bcasts r` supplied by the
solver and coordinator oracles.  (The spectral branch only updates `rho` and
the retained history, after the dual update; `rho` is held fixed here as in
the default `spectral=False` configuration.) -/
def run_worker (rho : ℚ) (solves bcasts : ℕ → ℕ → ℚ) : ℕ → WState
  | 0 => initWState
  | n + 1 => pullRound rho (solves n) (bcasts n) (run_worker rho solves bcasts n)

/-- One iteration of the `worker_map` loop (push mode): receive
`(xbars, uvals)`, assign both parameters, solve, then update
`uvals[key] += rho*(x - xbars[key])` and send `(status, xvals, uvals)`.
Returns the post-solve state and the updated dual map that is sent. -/
def worker_map_round (rho : ℚ) (solved xbars uvals : ℕ → ℚ) :
    WState × (ℕ → ℚ) :=
  let st : WState := ⟨solved, xbars, uvals⟩
  (st, fun k => uvals k + rho * (st.x k - xbars k))

/-- Observable events of one worker, tagged with the round index. -/
inductive WEvent
  | solve (r : ℕ)
  | send (r : ℕ)
  | recv (r : ℕ)
  | dualUpdate (r : ℕ)
  deriving DecidableEq

/-- Event order of one `run_worker` iteration: solve, report, block on the
broadcast, then update the dual. -/
def pullRoundEvents (r : ℕ) : List WEvent :=
  [WEvent.solve r, WEvent.send r, WEvent.recv r, WEvent.dualUpdate r]

/-- Events of the first `n` iterations of `run_worker`. -/
def pullTrace (n : ℕ) : List WEvent :=
  (List.range n).flatMap pullRoundEvents

/-- Event order of one `worker_map` iteration: block on the scatter, solve,
update the dual, then report. -/
def mapRoundEvents (r : ℕ) : List WEvent :=
  [WEvent.recv r, WEvent.solve r, WEvent.dualUpdate r, WEvent.send r]

/-- Events of the first `n` iterations of `worker_map`. -/
def mapTrace (n : ℕ) : List WEvent :=
  (List.range n).flatMap mapRoundEvents

/-! The proximal problem built by `prox_step`, over a small syntax of cvxpy
expressions: enough to record the objective tree the Python code builds. -/

/-- Parameters created by `prox_step`: the step size and, per variable id,
the consensus average and scaled dual. -/
inductive Pname
  | rho
  | xbar (id : ℕ)
  | u (id : ℕ)
  deriving DecidableEq

/-- Expression syntax: variables, parameters, rational constants, and the
operations `prox_step` uses to assemble the penalized objective. -/
inductive Expr
  | var (id : ℕ)
  | prm (p : Pname)
  | const (c : ℚ)
  | add (a b : Expr)
  | sub (a b : Expr)
  | neg (a : Expr)
  | mul (a b : Expr)
  | div (a b : Expr)
  | sumSquares (a : Expr)
  deriving DecidableEq

/-- A cvxpy objective: `Minimize` or `Maximize` of an expression. -/
inductive Objective
  | minimize (e : Expr)
  | maximize (e : Expr)
  deriving DecidableEq

/-- A cvxpy problem, as far as `prox_step` inspects it: its objective, its
constraint list (opaque constraint ids, compared only for identity), and the
ids returned by `prob.variables()`. -/
structure CProblem where
  objective : Objective
  constraints : List ℕ
  varIds : List ℕ

/-- `flip_obj(prob)`: return the objective if it is a `Minimize`, else its
negation (in cvxpy, `-Maximize(e)` is `Minimize(-e)`). -/
def flip_obj (p : CProblem) : Objective :=
  match p.objective with
  | Objective.minimize e => Objective.minimize e
  | Objective.maximize e => Objective.minimize (Expr.neg e)

/-- `.args[0]` of an objective: the underlying expression. -/
def objArg : Objective → Expr
  | Objective.minimize e => e
  | Objective.maximize e => e

/-- The zero-initialized parameter pair `prox_step` records per variable:
`Parameter(..., value=np.zeros(size))` for `xbar` and for `u`. -/
structure VEntry where
  xbarInit : ℚ
  uInit : ℚ
  deriving DecidableEq

/-- The penalty `prox_step` adds for variable `xid`:
`(rho/2.0)*sum_squares(xvar - vmap[xid]["xbar"] - vmap[xid]["u"]/rho)`. -/
def penaltyTerm (xid : ℕ) : Expr :=
  Expr.mul (Expr.div (Expr.prm Pname.rho) (Expr.const 2))
    (Expr.sumSquares
      (Expr.sub (Expr.sub (Expr.var xid) (Expr.prm (Pname.xbar xid)))
        (Expr.div (Expr.prm (Pname.u xid)) (Expr.prm Pname.rho))))

/-- `prox_step(prob, rho_init)`: start from the minimization-normalized
objective expression, then for each problem variable record the
zero-initialized `xbar`/`u` parameters and add the quadratic penalty; the
proximal problem keeps `prob.constraints` unchanged, and the `rho` parameter
carries value `rho_init`.  The single Python loop both fills `vmap` and
extends `f`; the two effects are written here as a map and a fold over the
same variable list. -/
def prox_step (prob : CProblem) (rho_init : ℚ) :
    CProblem × List (ℕ × VEntry) × ℚ :=
  let f0 := objArg (flip_obj prob)
  let vmap := prob.varIds.map fun xid => (xid, VEntry.mk 0 0)
  let f := prob.varIds.foldl (fun f xid => Expr.add f (penaltyTerm xid)) f0
  (⟨Objective.minimize f, prob.constraints, prob.varIds⟩, vmap, rho_init)

/-- Modelled from the spec: the augmented objective
`f_local(x) + (rho/2) * Σ_v ||x_v − xbar_v − u_v/rho||²` over every variable
of the local problem. -/
def augmentedObjective (f : Expr) (vars : List ℕ) : Expr :=
  vars.foldl (fun g v => Expr.add g (penaltyTerm v)) f

/-! The affine coefficient utility (`coefficient_utils.py`).  A coefficient
mapping is a Python dict from variable id to an ndarray of column blocks,
modelled as an insertion-ordered association list from id to a list of
blocks; each block acts pointwise, so it is modelled as one rational, and
ndarray `+` on the block arrays is elementwise addition. -/

namespace CoeffUtils

/-- A coefficient mapping: variable id to its list of column blocks. -/
abbrev Coeffs : Type := List (ℕ × List ℚ)

/-- One step of the merge loop of `add`: for `(var_id, blocks)` from the
right-hand dict, either `new_coeffs[var_id] = new_coeffs[var_id] + blocks`
(ndarray `+`, elementwise) when the key is present, or insert the key. -/
def mergeStep (acc : Coeffs) (kb : ℕ × List ℚ) : Coeffs :=
  if (acc.lookup kb.1).isSome then
    acc.map fun p => if p.1 = kb.1 then (p.1, List.zipWith (· + ·) p.2 kb.2) else p
  else
    acc ++ [kb]

/-- `add(lh_coeffs, rh_coeffs)`: copy the left dict, then merge every entry
of the right dict, summing common variables. -/
def add (lh rh : Coeffs) : Coeffs :=
  rh.foldl mergeStep lh

end CoeffUtils

/-! Helper lemmas. -/

theorem sumSq_nonneg (v : List ℝ) : 0 ≤ sumSq v := by
  unfold sumSq
  apply List.sum_nonneg
  intro x hx
  obtain ⟨y, _, rfl⟩ := List.mem_map.mp hx
  positivity

/-! Claims about the step-size controller. -/

/-- Claim C6: `step_spec` is a no-op on degenerate input — if any of the four
difference vectors has zero sum-of-squares, it returns the input `rho`
unchanged, regardless of every other argument. -/
theorem step_spec_degenerate (rho : ℝ) (k : ℕ) (dx dxbar du duhat : List ℝ)
    (eps C : ℝ)
    (h : sumSq dx = 0 ∨ sumSq dxbar = 0 ∨ sumSq du = 0 ∨ sumSq duhat = 0) :
    step_spec rho k dx dxbar du duhat eps C = rho := by
  rw [step_spec, if_pos h]

/-- Witness for C6: `dx = [0, 0]` is all zero, the other arguments are
arbitrary nonzero values, and the result is the input step size `7`. -/
theorem step_spec_degenerate_witness :
    sumSq ([0, 0] : List ℝ) = 0 ∧
    step_spec 7 3 [0, 0] [5] [5] [5] (1/5) 1 = 7 := by
  have hg : sumSq ([0, 0] : List ℝ) = 0 := by norm_num [sumSq]
  exact ⟨hg, step_spec_degenerate 7 3 [0, 0] [5] [5] [5] (1/5) 1 (Or.inl hg)⟩

/-- Claim C3: for every `rho > 0`, `k ≥ 1` and any difference vectors, the
result of `step_spec` lies in `[rho/scale, rho*scale]` with
`scale = 1 + C/k²`, and in particular stays strictly positive. -/
theorem step_spec_range (rho : ℝ) (k : ℕ) (dx dxbar du duhat : List ℝ)
    (eps C : ℝ) (hrho : 0 < rho) (hk : 1 ≤ k) (hC : 0 ≤ C) :
    rho / (1 + C / (k : ℝ) ^ 2) ≤ step_spec rho k dx dxbar du duhat eps C ∧
    step_spec rho k dx dxbar du duhat eps C ≤ (1 + C / (k : ℝ) ^ 2) * rho ∧
    0 < step_spec rho k dx dxbar du duhat eps C := by
  have hk1 : (1 : ℝ) ≤ (k : ℝ) := by exact_mod_cast hk
  have hk2 : (0 : ℝ) < (k : ℝ) ^ 2 := by positivity
  have hs1 : (1 : ℝ) ≤ 1 + C / (k : ℝ) ^ 2 :=
    le_add_of_nonneg_right (div_nonneg hC hk2.le)
  have hlow : rho / (1 + C / (k : ℝ) ^ 2) ≤ rho := div_le_self hrho.le hs1
  have hhigh : rho ≤ (1 + C / (k : ℝ) ^ 2) * rho := le_mul_of_one_le_left hrho.le hs1
  have hq : 0 < rho / (1 + C / (k : ℝ) ^ 2) :=
    div_pos hrho (lt_of_lt_of_le one_pos hs1)
  rw [step_spec]
  split_ifs with hg
  · exact ⟨hlow, hhigh, hrho⟩
  · dsimp only
    exact ⟨le_max_right _ _,
      max_le (min_le_right _ _) (hlow.trans hhigh),
      lt_of_lt_of_le hq (le_max_right _ _)⟩

/-- Witness for C3 at `rho = 1`, `k = 1`, `C = 1`, all-ones vectors. -/
theorem step_spec_range_witness :
    (1 : ℝ) / (1 + 1 / ((1 : ℕ) : ℝ) ^ 2) ≤ step_spec 1 1 [1] [1] [1] [1] (1/5) 1 ∧
    step_spec 1 1 [1] [1] [1] [1] (1/5) 1 ≤ (1 + 1 / ((1 : ℕ) : ℝ) ^ 2) * 1 ∧
    0 < step_spec 1 1 [1] [1] [1] [1] (1/5) 1 :=
  step_spec_range 1 1 [1] [1] [1] [1] (1/5) 1 one_pos le_rfl (by norm_num)

/-- Counterexample refuting C5 as stated: with `dx = [1, 0]`,
`duhat = [0, 1]`, `dxbar = [1]`, `du = [1]` every sum of squares is nonzero,
so the degenerate guard passes, yet the denominator `np.sum(p*d)` of the
steepest-descent quotient inside `step_ls dx duhat` is zero. -/
theorem step_ls_denominator_zero_despite_guard :
    ¬ (sumSq ([1, 0] : List ℝ) = 0 ∨ sumSq ([1] : List ℝ) = 0 ∨
        sumSq ([1] : List ℝ) = 0 ∨ sumSq ([0, 1] : List ℝ) = 0) ∧
    sumMul ([1, 0] : List ℝ) ([0, 1] : List ℝ) = 0 := by
  constructor
  · intro h
    rcases h with h | h | h | h <;> norm_num [sumSq] at h
  · norm_num [sumMul]

/-- Claim C5 (amended): when the zero sum-of-squares guard passes, the
`np.sum(p**2)` denominators of `step_ls` are the guard quantities themselves,
and both square-root denominators of `step_cor` are nonzero, so those
divisions recover their numerators exactly; the remaining `np.sum(p*d)`
denominator of `step_ls` is not protected by the guard. -/
theorem step_spec_guard_denominators (dx dxbar du duhat : List ℝ)
    (h1 : sumSq dx ≠ 0) (h2 : sumSq dxbar ≠ 0)
    (h3 : sumSq du ≠ 0) (h4 : sumSq duhat ≠ 0) :
    Real.sqrt (sumSq dx * sumSq duhat) ≠ 0 ∧
    Real.sqrt (sumSq dxbar * sumSq du) ≠ 0 ∧
    step_cor dx duhat * Real.sqrt (sumSq dx * sumSq duhat) = sumMul dx duhat ∧
    step_cor dxbar du * Real.sqrt (sumSq dxbar * sumSq du) = sumMul dxbar du := by
  have p1 : 0 < sumSq dx := lt_of_le_of_ne (sumSq_nonneg dx) (Ne.symm h1)
  have p2 : 0 < sumSq dxbar := lt_of_le_of_ne (sumSq_nonneg dxbar) (Ne.symm h2)
  have p3 : 0 < sumSq du := lt_of_le_of_ne (sumSq_nonneg du) (Ne.symm h3)
  have p4 : 0 < sumSq duhat := lt_of_le_of_ne (sumSq_nonneg duhat) (Ne.symm h4)
  have s1 : Real.sqrt (sumSq dx * sumSq duhat) ≠ 0 :=
    (Real.sqrt_pos.mpr (mul_pos p1 p4)).ne'
  have s2 : Real.sqrt (sumSq dxbar * sumSq du) ≠ 0 :=
    (Real.sqrt_pos.mpr (mul_pos p2 p3)).ne'
  exact ⟨s1, s2, div_mul_cancel₀ _ s1, div_mul_cancel₀ _ s2⟩

/-- Witness for the amended C5 at vectors `[1], [2], [3], [4]`. -/
theorem step_spec_guard_denominators_witness :
    Real.sqrt (sumSq ([1] : List ℝ) * sumSq ([4] : List ℝ)) ≠ 0 ∧
    Real.sqrt (sumSq ([2] : List ℝ) * sumSq ([3] : List ℝ)) ≠ 0 ∧
    step_cor [1] [4] * Real.sqrt (sumSq ([1] : List ℝ) * sumSq ([4] : List ℝ)) =
      sumMul [1] [4] ∧
    step_cor [2] [3] * Real.sqrt (sumSq ([2] : List ℝ) * sumSq ([3] : List ℝ)) =
      sumMul [2] [3] :=
  step_spec_guard_denominators [1] [2] [3] [4] (by norm_num [sumSq])
    (by norm_num [sumSq]) (by norm_num [sumSq]) (by norm_num [sumSq])

/-! Claims about the coordinator's averaging and round loop. -/

/-- Claim C1 (code bug): the value broadcast per key is the *sum*, not the
arithmetic mean, of the values reported for that key — `++xcnts[key]` never
increments the count, so the divide-by-count loop never fires.  Two workers
reporting `2` and `4` for key `1` yield a broadcast of `6` (in both
`x_average` and `consensus_map`), while the mean over the reporters is `3`. -/
theorem broadcast_is_sum_not_mean :
    x_average [(Status.optimal, [(1, 2)]), (Status.optimal, [(1, 4)])] =
      Except.ok [(1, 6)] ∧
    specMean [(Status.optimal, [(1, 2)]), (Status.optimal, [(1, 4)])] 1 = 3 ∧
    consensus_map [(1, 0)]
      [(Status.optimal, [(1, 2)], [(1, 10)]), (Status.optimal, [(1, 4)], [(1, 20)])] =
      Except.ok ([(1, 6)], [[(1, 10)], [(1, 20)]]) ∧
    (6 : ℚ) ≠ 3 := by
  refine ⟨?_, ?_, ?_, by norm_num⟩
  · norm_num [x_average, x_avg_go, accumReply, dictAdd, touchCnt, divideByCounts,
      divAssign, infOrUnb, List.lookup]
  · norm_num [specMean, List.filterMap_cons, List.lookup]
  · norm_num [consensus_map, cm_go, accumReply, dictAdd, touchCnt, divideByCounts,
      divAssign, infOrUnb, List.lookup]

/-- Claim C9: with `max_iter = 0` the round loop never runs, the local name
`xbars` is never bound, and after the terminate line the return expression
raises the unbound-local error instead of producing any (empty or default)
result. -/
theorem consensus_zero_iterations (reports : ℕ → List Report) :
    consensus_run reports 0 = (Except.error CErr.nameErrorXbars, true) := rfl

theorem x_avg_go_error (reps : List Report) (xb : XMap) (xc : CntMap)
    (h : anyInfUnb reps = true) :
    x_avg_go reps xb xc = Except.error CErr.infOrUnb := by
  induction reps generalizing xb xc with
  | nil => simp [anyInfUnb] at h
  | cons hd tl ih =>
    obtain ⟨st, xvals⟩ := hd
    by_cases hst : infOrUnb st
    · simp [x_avg_go, hst]
    · have hst' : infOrUnb st = false := by simpa using hst
      have htl : anyInfUnb tl = true := by
        simpa [anyInfUnb, hst'] using h
      simp [x_avg_go, hst', ih _ _ htl]

theorem x_avg_go_ok (reps : List Report) (xb : XMap) (xc : CntMap)
    (h : anyInfUnb reps = false) :
    ∃ r, x_avg_go reps xb xc = Except.ok r := by
  induction reps generalizing xb xc with
  | nil => exact ⟨(xb, xc), rfl⟩
  | cons hd tl ih =>
    obtain ⟨st, xvals⟩ := hd
    have h' : infOrUnb st = false ∧ anyInfUnb tl = false := by
      simpa [anyInfUnb] using h
    simpa [x_avg_go, h'.1] using ih _ _ h'.2

theorem x_average_error (reps : List Report) (h : anyInfUnb reps = true) :
    x_average reps = Except.error CErr.infOrUnb := by
  unfold x_average
  rw [x_avg_go_error reps [] [] h]

theorem x_average_ok (reps : List Report) (h : anyInfUnb reps = false) :
    ∃ m, x_average reps = Except.ok m := by
  obtain ⟨⟨xb, xc⟩, hr⟩ := x_avg_go_ok reps [] [] h
  exact ⟨_, by unfold x_average; rw [hr]⟩

theorem runRounds_first_failure (L : List (List Report)) (acc : Option XMap)
    (r : ℕ) (hr : r < L.length) (hfail : anyInfUnb (L.getD r []) = true)
    (hbefore : ∀ q, q < r → anyInfUnb (L.getD q []) = false) :
    runRounds L acc = (Except.error CErr.infOrUnb, false) := by
  induction L generalizing acc r with
  | nil => simp at hr
  | cons hd tl ih =>
    cases r with
    | zero =>
      have hhd : anyInfUnb hd = true := by simpa using hfail
      simp [runRounds, x_average_error hd hhd]
    | succ q =>
      have h0 : anyInfUnb hd = false := by simpa using hbefore 0 (Nat.succ_pos q)
      obtain ⟨m, hm⟩ := x_average_ok hd h0
      have step : runRounds (hd :: tl) acc = runRounds tl (some m) := by
        simp [runRounds, hm]
      rw [step]
      apply ih (some m) q
      · simpa using Nat.lt_of_succ_lt_succ hr
      · simpa using hfail
      · intro p hp
        simpa using hbefore (p + 1) (Nat.succ_lt_succ hp)

theorem getD_map_range {α : Type} (f : ℕ → α) (n q : ℕ) (hq : q < n) (d : α) :
    ((List.range n).map f).getD q d = f q := by
  simp [List.getD_eq_getElem?_getD, List.getElem?_map, List.getElem?_range hq]

/-- Claim C2 (amended): if round `r` is the first round whose gathered
statuses contain infeasible/unbounded and `r < max_iter`, the run stops at
round `r` with the single `RuntimeError` and no averaged result — of round
`r` or of any earlier round — is returned; however the workers are *not*
torn down: the exception propagates out of `consensus` before the
`p.terminate()` line is reached. -/
theorem consensus_abort_on_failure (reports : ℕ → List Report)
    (max_iter r : ℕ) (hr : r < max_iter)
    (hfail : anyInfUnb (reports r) = true)
    (hbefore : ∀ q, q < r → anyInfUnb (reports q) = false) :
    consensus_run reports max_iter = (Except.error CErr.infOrUnb, false) := by
  apply runRounds_first_failure _ none r
  · simpa using hr
  · rwa [getD_map_range reports max_iter r hr]
  · intro q hq
    rw [getD_map_range reports max_iter q (hq.trans hr)]
    exact hbefore q hq

/-- Witness for the amended C2: one worker, infeasible at round `0` of a
one-round run. -/
theorem consensus_abort_on_failure_witness :
    consensus_run (fun _ => [(Status.infeasible, [])]) 1 =
      (Except.error CErr.infOrUnb, false) :=
  consensus_abort_on_failure (fun _ => [(Status.infeasible, [])]) 1 0
    (by norm_num) rfl (fun q hq => absurd hq (Nat.not_lt_zero q))

/-- Counterexample refuting C2's teardown clause: on the same concrete
failing run, the terminate line is never reached (the flag that records
reaching `[p.terminate() for p in procs]` is `false`), so the workers are
not torn down, contrary to the claim. -/
theorem consensus_failure_skips_teardown :
    (consensus_run (fun _ => [(Status.infeasible, [])]) 1).2 = false := rfl

/-! Claims about the worker loops. -/

theorem count_pullRoundEvents (m r : ℕ) :
    (pullRoundEvents m).count (WEvent.dualUpdate r) = if m = r then 1 else 0 := by
  by_cases h : m = r
  · simp [pullRoundEvents, List.count_cons, h]
  · simp [pullRoundEvents, List.count_cons, h, Ne.symm h]

theorem count_mapRoundEvents (m r : ℕ) :
    (mapRoundEvents m).count (WEvent.dualUpdate r) = if m = r then 1 else 0 := by
  by_cases h : m = r
  · simp [mapRoundEvents, List.count_cons, h]
  · simp [mapRoundEvents, List.count_cons, h, Ne.symm h]

theorem flatMap_range_count_dualUpdate (f : ℕ → List WEvent) (r : ℕ)
    (hcnt : ∀ m, (f m).count (WEvent.dualUpdate r) = if m = r then 1 else 0)
    (n : ℕ) :
    ((List.range n).flatMap f).count (WEvent.dualUpdate r) =
      if r < n then 1 else 0 := by
  induction n with
  | zero => simp
  | succ m ih =>
    rw [List.range_succ, List.flatMap_append, List.count_append, ih]
    have hm : ([m].flatMap f).count (WEvent.dualUpdate r) = if m = r then 1 else 0 := by
      simpa using hcnt m
    rw [hm]
    rcases Nat.lt_trichotomy r m with h | h | h
    · simp [h, Nat.lt_succ_of_lt h, Nat.ne_of_gt h]
    · simp [h, Nat.lt_succ_self]
    · have h1 : ¬ r < m := Nat.lt_asymm h
      have h2 : ¬ r < m + 1 := by omega
      have h3 : m ≠ r := Nat.ne_of_lt h
      simp [h1, h2, h3]

theorem flatMap_range_length (f : ℕ → List WEvent) (c : ℕ)
    (hlen : ∀ m, (f m).length = c) (n : ℕ) :
    ((List.range n).flatMap f).length = c * n := by
  induction n with
  | zero => simp
  | succ m ih =>
    rw [List.range_succ, List.flatMap_append, List.length_append, ih]
    have : ([m].flatMap f).length = c := by simpa using hlen m
    rw [this]
    ring

theorem flatMap_range_getElem? (f : ℕ → List WEvent) (c : ℕ)
    (hlen : ∀ m, (f m).length = c) (n r j : ℕ) (hr : r < n) (hj : j < c) :
    ((List.range n).flatMap f)[c * r + j]? = (f r)[j]? := by
  induction n with
  | zero => omega
  | succ m ih =>
    rw [List.range_succ, List.flatMap_append]
    rcases Nat.lt_succ_iff_lt_or_eq.mp hr with h | h
    · rw [List.getElem?_append_left]
      · exact ih h
      · rw [flatMap_range_length f c hlen]
        calc c * r + j < c * r + c := by omega
        _ = c * (r + 1) := by ring
        _ ≤ c * m := Nat.mul_le_mul_left c h
    · subst h
      rw [List.getElem?_append_right]
      · have hix : c * r + j - ((List.range r).flatMap f).length = j := by
          rw [flatMap_range_length f c hlen]
          omega
        rw [hix]
        simp
      · rw [flatMap_range_length f c hlen]
        omega

/-- Claim C4: in both worker loops the scaled dual is updated exactly once
per round, by `u += rho*(x - xbar)` with that round's broadcast average: for
`run_worker` the dual after round `r+1` differs from the dual after round
`r` by `rho*(solves r - bcasts r)` pointwise, and for `worker_map` the dual
sent in a round is the received dual plus `rho*(x - xbar)`; and in the event
traces of either loop, round `r` contains exactly one dual update, placed
after that round's receive of the broadcast and before round `r+1`'s solve. -/
theorem dual_update_once_per_round (rho : ℚ) (solves bcasts : ℕ → ℕ → ℚ)
    (sv xb uv : ℕ → ℚ) (n r j : ℕ) (h : r + 1 < n) :
    ((run_worker rho solves bcasts (r + 1)).u j =
      (run_worker rho solves bcasts r).u j + rho * (solves r j - bcasts r j)) ∧
    ((worker_map_round rho sv xb uv).2 j = uv j + rho * (sv j - xb j)) ∧
    (pullTrace n).count (WEvent.dualUpdate r) = 1 ∧
    (pullTrace n)[4 * r + 2]? = some (WEvent.recv r) ∧
    (pullTrace n)[4 * r + 3]? = some (WEvent.dualUpdate r) ∧
    (pullTrace n)[4 * (r + 1)]? = some (WEvent.solve (r + 1)) ∧
    (mapTrace n).count (WEvent.dualUpdate r) = 1 ∧
    (mapTrace n)[4 * r]? = some (WEvent.recv r) ∧
    (mapTrace n)[4 * r + 2]? = some (WEvent.dualUpdate r) ∧
    (mapTrace n)[4 * (r + 1) + 1]? = some (WEvent.solve (r + 1)) := by
  have hr : r < n := Nat.lt_of_succ_lt h
  have hlenp : ∀ m, (pullRoundEvents m).length = 4 := fun m => rfl
  have hlenm : ∀ m, (mapRoundEvents m).length = 4 := fun m => rfl
  refine ⟨rfl, rfl, ?_, ?_, ?_, ?_, ?_, ?_, ?_, ?_⟩
  · rw [pullTrace, flatMap_range_count_dualUpdate pullRoundEvents r
      (count_pullRoundEvents · r) n, if_pos hr]
  · rw [pullTrace, flatMap_range_getElem? pullRoundEvents 4 hlenp n r 2 hr
      (by omega)]
    rfl
  · rw [pullTrace, flatMap_range_getElem? pullRoundEvents 4 hlenp n r 3 hr
      (by omega)]
    rfl
  · have : 4 * (r + 1) = 4 * (r + 1) + 0 := rfl
    rw [pullTrace, this, flatMap_range_getElem? pullRoundEvents 4 hlenp n
      (r + 1) 0 h (by omega)]
    rfl
  · rw [mapTrace, flatMap_range_count_dualUpdate mapRoundEvents r
      (count_mapRoundEvents · r) n, if_pos hr]
  · have : 4 * r = 4 * r + 0 := rfl
    rw [mapTrace, this, flatMap_range_getElem? mapRoundEvents 4 hlenm n r 0 hr
      (by omega)]
    rfl
  · rw [mapTrace, flatMap_range_getElem? mapRoundEvents 4 hlenm n r 2 hr
      (by omega)]
    rfl
  · rw [mapTrace, flatMap_range_getElem? mapRoundEvents 4 hlenm n (r + 1) 1 h
      (by omega)]
    rfl

/-- Witness for C4: a two-round trace with constant oracles, round `0`. -/
theorem dual_update_once_per_round_witness :
    (pullTrace 2).count (WEvent.dualUpdate 0) = 1 :=
  (dual_update_once_per_round 1 (fun _ _ => 0) (fun _ _ => 0) (fun _ => 0)
    (fun _ => 0) (fun _ => 0) 2 0 0 (by norm_num)).2.2.1

/-! Claims about run-entry validation and the proximal problem. -/

/-- Counterexample refuting C7: a supplied step-size list whose length (3)
differs from the number of problems (2) is not rejected by any validation —
the spawn loop proceeds, handing out the first two entries. -/
theorem consensus_setup_wrong_length_accepted :
    ([(1 : ℚ), 2, 3] : List ℚ).length ≠ 2 ∧
    consensus_setup 2 (some [1, 2, 3]) = Except.ok [1, 2] := by
  exact ⟨by simp, rfl⟩

/-- Claim C7 (amended): `consensus` performs no explicit length validation.
With no list supplied, every worker defaults to the same initial step size
`1.0`; with a supplied list at least as long as the problem count, the run
proceeds with worker `i` taking entry `i`, even when the lengths differ.
(A list shorter than the problem count fails only with an `IndexError`
inside the spawn loop, not by an up-front validation.) -/
theorem consensus_setup_no_validation (N : ℕ) (l : List ℚ) (h : N ≤ l.length) :
    consensus_setup N (some l) = Except.ok (l.take N) ∧
    consensus_setup N none = Except.ok (List.replicate N 1) := by
  constructor
  · simp [consensus_setup, consensus_rho_init, Nat.not_lt.mpr h]
  · simp [consensus_setup, consensus_rho_init, List.take_replicate]

/-- Witness for the amended C7 at two problems and a three-entry list. -/
theorem consensus_setup_no_validation_witness :
    consensus_setup 2 (some [1, 2, 3]) = Except.ok [1, 2] ∧
    consensus_setup 2 none = Except.ok (List.replicate 2 1) :=
  consensus_setup_no_validation 2 [1, 2, 3] (by norm_num)

/-- Claim C8: `prox_step` keeps the local problem's constraint list exactly,
its objective is the minimization-normalized local objective plus the
quadratic consensus penalty summed over every variable of the local problem
(the spec's augmented objective), the per-variable `xbar` and `u` parameters
are zero-initialized at construction, and the `rho` parameter carries the
supplied initial step size. -/
theorem prox_step_frame (prob : CProblem) (rho_init : ℚ) :
    (prox_step prob rho_init).1.constraints = prob.constraints ∧
    (prox_step prob rho_init).1.objective =
      Objective.minimize
        (augmentedObjective (objArg (flip_obj prob)) prob.varIds) ∧
    ((prox_step prob rho_init).2.1.map Prod.fst = prob.varIds) ∧
    (∀ e ∈ (prox_step prob rho_init).2.1, e.2.xbarInit = 0 ∧ e.2.uInit = 0) ∧
    (prox_step prob rho_init).2.2 = rho_init := by
  refine ⟨rfl, rfl, ?_, ?_, rfl⟩
  · simp [prox_step, List.map_map, Function.comp_def]
  · intro e he
    have hv : (prox_step prob rho_init).2.1 =
        prob.varIds.map fun xid => (xid, VEntry.mk 0 0) := rfl
    rw [hv] at he
    obtain ⟨xid, _, rfl⟩ := List.mem_map.mp he
    exact ⟨rfl, rfl⟩

/-- Witness for C8: a concrete maximization problem with one constraint and
two variables. -/
theorem prox_step_frame_witness :
    (prox_step ⟨Objective.maximize (Expr.var 1), [5], [1, 2]⟩ 3).1.constraints =
      [5] ∧
    (prox_step ⟨Objective.maximize (Expr.var 1), [5], [1, 2]⟩ 3).2.2 = 3 := by
  have h := prox_step_frame ⟨Objective.maximize (Expr.var 1), [5], [1, 2]⟩ 3
  exact ⟨h.1, h.2.2.2.2⟩

/-! Claim about the coefficient utility. -/

namespace CoeffUtils

theorem lookup_map_update_self (l : Coeffs) (t : ℕ) (b : List ℚ) :
    (l.map fun p => if p.1 = t then (p.1, List.zipWith (· + ·) p.2 b) else p).lookup t =
      (l.lookup t).map fun a => List.zipWith (· + ·) a b := by
  induction l with
  | nil => simp
  | cons hd tl ih =>
    obtain ⟨a, v⟩ := hd
    by_cases hh : a = t
    · subst hh
      simp [List.lookup_cons]
    · simp [List.lookup_cons, hh, beq_eq_false_iff_ne.mpr (Ne.symm hh), ih]

theorem lookup_map_update_ne (l : Coeffs) (t : ℕ) (b : List ℚ) (k : ℕ)
    (h : k ≠ t) :
    (l.map fun p => if p.1 = t then (p.1, List.zipWith (· + ·) p.2 b) else p).lookup k =
      l.lookup k := by
  induction l with
  | nil => simp
  | cons hd tl ih =>
    obtain ⟨a, v⟩ := hd
    by_cases hh : a = t
    · subst hh
      simp [List.lookup_cons, beq_eq_false_iff_ne.mpr h, ih]
    · by_cases hk : k = a
      · subst hk
        simp [List.lookup_cons, hh]
      · simp [List.lookup_cons, hh, beq_eq_false_iff_ne.mpr hk, ih]

theorem lookup_mergeStep_self (acc : Coeffs) (k0 : ℕ) (b0 : List ℚ) :
    (mergeStep acc (k0, b0)).lookup k0 =
      some ((acc.lookup k0).elim b0 fun a => List.zipWith (· + ·) a b0) := by
  by_cases hp : (acc.lookup k0).isSome
  · obtain ⟨a, ha⟩ := Option.isSome_iff_exists.mp hp
    simp only [mergeStep, ha, Option.isSome_some, if_true]
    rw [lookup_map_update_self, ha]
    rfl
  · have hnone : acc.lookup k0 = none := Option.not_isSome_iff_eq_none.mp hp
    simp only [mergeStep, hnone, Option.isSome_none, Bool.false_eq_true, if_false]
    rw [List.lookup_append, hnone]
    simp

theorem lookup_mergeStep_ne (acc : Coeffs) (k0 : ℕ) (b0 : List ℚ) (k : ℕ)
    (h : k ≠ k0) :
    (mergeStep acc (k0, b0)).lookup k = acc.lookup k := by
  unfold mergeStep
  split_ifs with hp
  · exact lookup_map_update_ne acc k0 b0 k h
  · rw [List.lookup_append]
    have hb : (k == k0) = false := beq_eq_false_iff_ne.mpr h
    have hs : ([(k0, b0)] : Coeffs).lookup k = none := by
      simp [List.lookup_cons, hb]
    rw [hs]
    cases acc.lookup k <;> rfl

theorem mergeStep_nodupKeys (acc : Coeffs) (kb : ℕ × List ℚ)
    (h : (acc.map Prod.fst).Nodup) :
    ((mergeStep acc kb).map Prod.fst).Nodup := by
  unfold mergeStep
  split_ifs with hp
  · have hkeys :
        ((acc.map fun p =>
          if p.1 = kb.1 then (p.1, List.zipWith (· + ·) p.2 kb.2) else p).map
            Prod.fst) = acc.map Prod.fst := by
      rw [List.map_map]
      apply List.map_congr_left
      intro p _
      by_cases hq : p.1 = kb.1 <;> simp [hq]
    rw [hkeys]
    exact h
  · have hnone : acc.lookup kb.1 = none := Option.not_isSome_iff_eq_none.mp hp
    have hnotin : kb.1 ∉ acc.map Prod.fst := by
      rw [List.lookup_eq_none_iff] at hnone
      intro hmem
      obtain ⟨p, hpmem, hfst⟩ := List.mem_map.mp hmem
      have := hnone p hpmem
      simp [hfst] at this
    rw [List.map_append]
    simp [List.nodup_append, h, hnotin]

/-- Claim C10: `add` merges two coefficient dicts with well-formed (duplicate
free) key sets: looking up any variable id in the result gives the
elementwise sum of its two block arrays when the id is in both inputs, the
single input's blocks unchanged when it is in exactly one, and nothing when
it is in neither — so missing variables behave as zero and the result's key
set is the union of the two key sets. -/
theorem add_lookup (lh rh : Coeffs) (hl : (lh.map Prod.fst).Nodup)
    (hr : (rh.map Prod.fst).Nodup) (k : ℕ) :
    (add lh rh).lookup k =
      match lh.lookup k, rh.lookup k with
      | some a, some b => some (List.zipWith (· + ·) a b)
      | some a, none => some a
      | none, some b => some b
      | none, none => none := by
  induction rh generalizing lh hl with
  | nil => cases hlk : lh.lookup k <;> simp [add, hlk]
  | cons b t ih =>
    rw [List.map_cons] at hr
    have hb : b.1 ∉ t.map Prod.fst := (List.nodup_cons.mp hr).1
    have ht : (t.map Prod.fst).Nodup := (List.nodup_cons.mp hr).2
    have hstep : add lh (b :: t) = add (mergeStep lh b) t := rfl
    rw [hstep, ih (mergeStep lh b) (mergeStep_nodupKeys lh b hl) ht]
    obtain ⟨b1, b2⟩ := b
    by_cases hk : k = b1
    · have htnone : t.lookup k = none := by
        rw [List.lookup_eq_none_iff]
        intro p hp
        have hpmem : p.1 ∈ t.map Prod.fst := List.mem_map_of_mem Prod.fst hp
        have hne : k ≠ p.1 := by
          intro he
          apply hb
          show b1 ∈ t.map Prod.fst
          rw [← hk, he]
          exact hpmem
        simpa [bne_iff_ne] using hne
      rw [htnone, hk, lookup_mergeStep_self lh b1 b2]
      cases hlk : lh.lookup b1 <;> simp [hlk, List.lookup_cons]
    · rw [lookup_mergeStep_ne lh b1 b2 k hk]
      have hbne : (k == b1) = false := beq_eq_false_iff_ne.mpr hk
      have hcons : ((b1, b2) :: t).lookup k = t.lookup k := by
        simp [List.lookup_cons, hbne]
      rw [hcons]

/-- Witness for C10: ids `1` (in both, blocks summed elementwise), `2` (left
only), `3` (right only), `4` (absent). -/
theorem add_lookup_witness :
    (add [(1, [1, 2]), (2, [5])] [(1, [10, 20]), (3, [7])]).lookup 1 =
      some [11, 22] ∧
    (add [(1, [1, 2]), (2, [5])] [(1, [10, 20]), (3, [7])]).lookup 2 =
      some [5] ∧
    (add [(1, [1, 2]), (2, [5])] [(1, [10, 20]), (3, [7])]).lookup 3 =
      some [7] ∧
    (add [(1, [1, 2]), (2, [5])] [(1, [10, 20]), (3, [7])]).lookup 4 = none := by
  have h1 := add_lookup [(1, [1, 2]), (2, [5])] [(1, [10, 20]), (3, [7])]
    (by decide) (by decide) 1
  have h2 := add_lookup [(1, [1, 2]), (2, [5])] [(1, [10, 20]), (3, [7])]
    (by decide) (by decide) 2
  have h3 := add_lookup [(1, [1, 2]), (2, [5])] [(1, [10, 20]), (3, [7])]
    (by decide) (by decide) 3
  have h4 := add_lookup [(1, [1, 2]), (2, [5])] [(1, [10, 20]), (3, [7])]
    (by decide) (by decide) 4
  refine ⟨?_, ?_, ?_, ?_⟩
  · rw [h1]; norm_num [List.lookup]
  · rw [h2]; decide
  · rw [h3]; decide
  · rw [h4]; decide

end CoeffUtils
